import Mathlib

/-!
Verification development for the gorm versioned graph store.

The Python source is shallowly embedded: each Python class becomes a
structure over lists, each method a total Lean function.  Python `None`
used as a value (the tombstone) is modelled by `Option.none`; raised
exceptions are modelled with `Except` (or an `Option PyErr` paired with
the mutated state when the source mutates before raising).  Revisions
are `Int` (32-bit signed in the schema; overflow is irrelevant to the
properties treated here, which never perform revision arithmetic).
-/

deriving instance DecidableEq for Except

namespace Gorm

/-- The Python exceptions the embedded code can raise, distinguished as far
as the source distinguishes them by type and message. -/
inductive PyErr where
  /-- `KeyError("Revision {} is before the start of history")` -/
  | keyBeforeStart
  /-- `KeyError("Set, then deleted")` -/
  | keySetThenDeleted
  /-- `KeyError("Key not set")` -/
  | keyNotSet
  /-- `KeyError("Key never set")` -/
  | keyNeverSet
  /-- `KeyError("Rev not present: {}")` -/
  | keyMissingRev
  /-- `KeyError(name)` from looking up an unknown compiled-query name -/
  | keyError (name : String)
  /-- `ValueError` -/
  | valueError
  /-- `AttributeError` -/
  | attributeError
  /-- `IndexError` -/
  | indexError
  /-- sqlite3 / sqlalchemy `IntegrityError` -/
  | integrityError
  /-- artefact of the fuel-based embedding of an unbounded `while` loop;
  never produced under the termination hypotheses used below -/
  | fuelExhausted
deriving DecidableEq

/-- One revision-history entry: `(rev, value)`, where the value `none`
models Python `None`, the tombstone. -/
abbrev Entry (α : Type) := Int × Option α

/-- `gorm.cache.WindowDict`: two deques, `_past` and `_future`, per
`__slots__ = ['_past', '_future']`.  Deques are modelled as lists; the
left end of the deque is the head of the list. -/
structure WindowDict (α : Type) where
  _past : List (Entry α)
  _future : List (Entry α)
deriving DecidableEq

namespace WindowDict

variable {α : Type}

/-- All entries in deque order, `_past` then `_future`. -/
def entries (d : WindowDict α) : List (Entry α) :=
  d._past ++ d._future

/-- The predicate `rev' <= rev` on an entry, as a `Bool` for use with
`takeWhile` and `filter`. -/
def keyLE (rev : Int) (e : Entry α) : Bool :=
  decide (e.1 ≤ rev)

/-- The representation invariant maintained by `WindowDict`: the
concatenated entry list is strictly ascending in revision (hence at most
one entry per revision, and every past revision below every future one). -/
def Sorted (d : WindowDict α) : Prop :=
  List.Pairwise (fun a b : Entry α => a.1 < b.1) d.entries

instance (d : WindowDict α) : Decidable d.Sorted := by
  unfold Sorted; infer_instance

/-- First `while` loop of `WindowDict.seek`:
`while self._future and self._future[0][0] <= rev:
    self._past.append(self._future.popleft())`. -/
def moveFutureToPast (rev : Int) : List (Entry α) → List (Entry α) →
    List (Entry α) × List (Entry α)
  | p, [] => (p, [])
  | p, e :: f =>
    if e.1 ≤ rev then moveFutureToPast rev (p ++ [e]) f else (p, e :: f)

/-- Helper for the second `while` loop of `WindowDict.seek`: the past
deque is passed reversed (top first), so that popping from its end is
structural recursion. -/
def movePastToFutureRev (rev : Int) :
    List (Entry α) → List (Entry α) → List (Entry α) × List (Entry α)
  | [], f => ([], f)
  | e :: rp, f =>
    if rev < e.1 then movePastToFutureRev rev rp (e :: f)
    else ((e :: rp).reverse, f)

/-- Second `while` loop of `WindowDict.seek`:
`while self._past and self._past[-1][0] > rev:
    self._future.appendleft(self._past.pop())`. -/
def movePastToFuture (rev : Int) (p f : List (Entry α)) :
    List (Entry α) × List (Entry α) :=
  movePastToFutureRev rev p.reverse f

/-- The early-return test at the top of `WindowDict.seek`:
`if self._past and self._past[-1][0] <= rev and
   (not self._future or self._future[0][0] > rev): return`. -/
def seekFast (rev : Int) (d : WindowDict α) : Bool :=
  match d._past.getLast?, d._future.head? with
  | some e, none => decide (e.1 ≤ rev)
  | some e, some f => decide (e.1 ≤ rev) && decide (rev < f.1)
  | none, _ => false

/-- `WindowDict.seek`: normalise the split so that all revisions `<= rev`
sit in `_past` and the rest in `_future`. -/
def seek (rev : Int) (d : WindowDict α) : WindowDict α :=
  if seekFast rev d then d
  else
    let pf1 := moveFutureToPast rev d._past d._future
    let pf2 := movePastToFuture rev pf1.1 pf1.2
    ⟨pf2.1, pf2.2⟩

/-- `WindowDict.__getitem__`: seek, then report the top of `_past`,
raising on an empty past or a tombstone, with distinct messages. -/
def getitem (d : WindowDict α) (rev : Int) : Except PyErr α :=
  let d := seek rev d
  match d._past.getLast? with
  | none => Except.error PyErr.keyBeforeStart
  | some (_, none) => Except.error PyErr.keySetThenDeleted
  | some (_, some v) => Except.ok v

/-- `WindowDict.__setitem__`.  The `elif` chain evaluates `self._past[0]`,
which raises `IndexError` when `_past` is empty while `_future` is not;
the two final `else` arms perform `self.seek(rev)` and then append to
`_past` unconditionally. -/
def setitem (d : WindowDict α) (rev : Int) (v : Option α) :
    Except PyErr (WindowDict α) :=
  match d._past with
  | [] =>
    if d._future.isEmpty then Except.ok ⟨[(rev, v)], []⟩
    else Except.error PyErr.indexError
  | p0 :: ps =>
    let pl := (p0 :: ps).getLast (List.cons_ne_nil p0 ps)
    if rev < p0.1 then Except.ok ⟨(rev, v) :: p0 :: ps, d._future⟩
    else if rev = p0.1 then Except.ok ⟨(rev, v) :: ps, d._future⟩
    else if rev = pl.1 then
      Except.ok ⟨(p0 :: ps).dropLast ++ [(rev, v)], d._future⟩
    else if pl.1 < rev then
      match d._future with
      | [] => Except.ok ⟨(p0 :: ps) ++ [(rev, v)], []⟩
      | f0 :: fs =>
        let fl := (f0 :: fs).getLast (List.cons_ne_nil f0 fs)
        if rev < f0.1 then Except.ok ⟨(p0 :: ps) ++ [(rev, v)], f0 :: fs⟩
        else if rev = f0.1 then Except.ok ⟨p0 :: ps, (rev, v) :: fs⟩
        else if rev = fl.1 then
          Except.ok ⟨p0 :: ps, (f0 :: fs).dropLast ++ [(rev, v)]⟩
        else if fl.1 < rev then Except.ok ⟨p0 :: ps, (f0 :: fs) ++ [(rev, v)]⟩
        else
          let d1 := seek rev d
          Except.ok ⟨d1._past ++ [(rev, v)], d1._future⟩
    else
      let d1 := seek rev d
      Except.ok ⟨d1._past ++ [(rev, v)], d1._future⟩

/-- The attribute read `self._rev` performed first by
`WindowDict.__delitem__`.  `WindowDict` declares
`__slots__ = ['_past', '_future']` and no method of the class or its
subclasses ever assigns `_rev`, so this lookup raises `AttributeError`
on every instance. -/
def revAttr (_d : WindowDict α) : Except PyErr Int :=
  Except.error PyErr.attributeError

/-- `WindowDict.__delitem__`: chooses a deque by comparing with
`self._rev`, filters out the entry at `rev` into `waste`, and raises
`KeyError` when no entry was removed.  (The `assert not deleted` in the
scan is a no-op whenever revisions are unique and is not modelled.) -/
def delitem (d : WindowDict α) (rev : Int) : Except PyErr (WindowDict α) := do
  let cur ← revAttr d
  let isPast := rev ≤ cur
  let stack := if isPast then d._past else d._future
  let waste := stack.filter (fun e => ! decide (e.1 = rev))
  if stack.any (fun e => decide (e.1 = rev)) then
    Except.ok (if isPast then ⟨waste, d._future⟩ else ⟨d._past, waste⟩)
  else Except.error PyErr.keyMissingRev

/-- The part of `FuturistWindowDict.__setitem__` after the conditional
seek, acting on the possibly-seeked state `d1`: raise if any future
remains, else append, overwrite the last entry, or raise. -/
def fsetitemTail (rev : Int) (v : Option α) (d1 : WindowDict α) :
    Except PyErr Unit × WindowDict α :=
  if d1._future.isEmpty then
    match d1._past.getLast? with
    | none => (Except.ok (), ⟨d1._past ++ [(rev, v)], d1._future⟩)
    | some e =>
      if e.1 < rev then (Except.ok (), ⟨d1._past ++ [(rev, v)], d1._future⟩)
      else if rev = e.1 then
        (Except.ok (), ⟨d1._past.dropLast ++ [(rev, v)], d1._future⟩)
      else (Except.error PyErr.valueError, d1)
  else (Except.error PyErr.valueError, d1)

/-- `FuturistWindowDict.__setitem__`.  Returns the raised exception (if
any) together with the final state, because the `seek` performed before
raising mutates the past/future split. -/
def fsetitem (d : WindowDict α) (rev : Int) (v : Option α) :
    Except PyErr Unit × WindowDict α :=
  if d._past.isEmpty && d._future.isEmpty then (Except.ok (), ⟨[(rev, v)], []⟩)
  else fsetitemTail rev v (if d._future.isEmpty then d else seek rev d)

/-- `FuturistWindowDict.__setitem__` as used in statement position: the
new state on success, the exception otherwise. -/
def storeFWD (d : WindowDict α) (rev : Int) (v : Option α) :
    Except PyErr (WindowDict α) :=
  match fsetitem d rev v with
  | (Except.ok _, d1) => Except.ok d1
  | (Except.error e, _) => Except.error e

/-- `rev in wd` for a `WindowDict`: `MutableMapping.__contains__` calls
`__getitem__` and catches `KeyError`. -/
def fcontains (d : WindowDict α) (rev : Int) : Bool :=
  match getitem d rev with
  | Except.ok _ => true
  | Except.error _ => false

/-- `WindowDict.has_exact_rev`. -/
def hasExactRev (d : WindowDict α) (rev : Int) : Bool :=
  let d1 := seek rev d
  match d1._past.getLast? with
  | some e => decide (e.1 = rev)
  | none => false

/-- In-place mutation of the value object stored at the exact revision
`rev` (as done by `kc[rev].add(key)` / `kc[rev].discard(key)` on the set
object held in the cache; no `__setitem__` call is involved). -/
def updateExact (d : WindowDict α) (rev : Int) (v : Option α) : WindowDict α :=
  ⟨d._past.map (fun e => if e.1 = rev then (rev, v) else e),
   d._future.map (fun e => if e.1 = rev then (rev, v) else e)⟩

end WindowDict

/-! `gorm.window`: the two implementations inside `window_left`.  The
memo table keyed by `frozenset(revs)` and `rev` caches exactly the value
computed below on first call, so it is omitted. -/

/-- The numpy-accelerated path of `gorm.window.window_left`:
`revs = array(tuple(frozenset(revs))); smalls = revs[less_equal(revs, rev)];
smalls.max() if len(smalls) else None`. -/
def window_left_np (revs : List Int) (rev : Int) : Option Int :=
  ((revs.dedup).filter (fun rv => decide (rv ≤ rev))).max?

/-- The pure-Python fallback path of `gorm.window.window_left`:
`smalls = [rv for rv in revs if rv < rev]; max(smalls) if smalls else None`. -/
def window_left_py (revs : List Int) (rev : Int) : Option Int :=
  (revs.filter (fun rv => decide (rv < rev))).max?

/-! `gorm.query.QueryEngine`. -/

/-- `QueryEngine.active_branches(branch, rev)`, a generator; the lazily
filled `self._branches` cache is the function `bs`.  On a cache miss the
source executes `(b, r) = self.parparrev(branch)`, which tuple-unpacks
the returned cursor / result proxy itself (not a fetched row); the single
result row makes the unpack raise `ValueError`, so a miss always raises.
The `while branch != 'master'` loop is given fuel; under the rootedness
hypothesis used below the fuel is never exhausted. -/
def activeBranchesFrom (bs : String → Option (String × Int)) :
    Nat → String → Int → Except PyErr (List (String × Int))
  | fuel, b, r =>
    if b = "master" then Except.ok [(b, r)]
    else
      match fuel with
      | 0 => Except.error PyErr.fuelExhausted
      | fuel + 1 =>
        match bs b with
        | none => Except.error PyErr.valueError
        | some (pb, pr) =>
          (activeBranchesFrom bs fuel pb pr).map (fun l => (b, r) :: l)

/-- The branch `b` is registered in the branch cache `bs` and its parent
chain reaches `master`: the genealogy restricted to the ancestors of `b`
is a tree rooted at `master` (invariant I1 for this branch). -/
inductive RootedAt (bs : String → Option (String × Int)) : String → Prop where
  | master : RootedAt bs "master"
  | step {b pb : String} {pr : Int} :
      b ≠ "master" → bs b = some (pb, pr) → RootedAt bs pb → RootedAt bs b

/-- A row of the `graph_val` table. -/
structure GraphValRow where
  graph : String
  key : String
  branch : String
  rev : Int
  value : Option String
deriving DecidableEq

/-- A row of the `node_val` table. -/
structure NodeValRow where
  graph : String
  node : String
  key : String
  branch : String
  rev : Int
  value : Option String
deriving DecidableEq

/-- A row of the `nodes` table. -/
structure NodeRow where
  graph : String
  node : String
  branch : String
  rev : Int
  extant : Bool
deriving DecidableEq

/-- A row of the `edges` table. -/
structure EdgeRow where
  graph : String
  nodeA : String
  nodeB : String
  idx : Int
  branch : String
  rev : Int
  extant : Bool
deriving DecidableEq

/-- A row of the `edge_val` table. -/
structure EdgeValRow where
  graph : String
  nodeA : String
  nodeB : String
  idx : Int
  key : String
  branch : String
  rev : Int
  value : Option String
deriving DecidableEq

/-- The compiled query `graph_val_get` (alchemy.py): rows of `graph_val`
matching `(graph, key, branch)` with `rev <= rev0`, self-joined against
the per-`(graph, key, branch)` `MAX(rev)`, projected to `value`. -/
def sql_graph_val_get (tbl : List GraphValRow) (graph key branch : String)
    (rev0 : Int) : List (Option String) :=
  let grp := tbl.filter (fun row =>
    decide (row.graph = graph) && decide (row.key = key) &&
    decide (row.branch = branch) && decide (row.rev ≤ rev0))
  match (grp.map (fun row => row.rev)).max? with
  | none => []
  | some m => (grp.filter (fun row => decide (row.rev = m))).map
      (fun row => row.value)

/-- The compiled query `node_val_get` (alchemy.py): like
`sql_graph_val_get` but grouped per `(graph, node, key, branch)` and with
the outer `WHERE value != NULL` filter. -/
def sql_node_val_get (tbl : List NodeValRow) (graph node key branch : String)
    (rev0 : Int) : List (Option String) :=
  let grp := tbl.filter (fun row =>
    decide (row.graph = graph) && decide (row.node = node) &&
    decide (row.key = key) && decide (row.branch = branch) &&
    decide (row.rev ≤ rev0))
  match (grp.map (fun row => row.rev)).max? with
  | none => []
  | some m => ((grp.filter (fun row => decide (row.rev = m))).map
      (fun row => row.value)).filter (fun v => v.isSome)

/-- `QueryEngine.graph_val_get`, given the already-produced
`active_branches` sequence.  Each iteration issues the query with the
original `branch` and `rev` arguments — the `(b, r)` pair yielded by
`active_branches` is bound but not passed — and returns the first row of
a non-empty result (the `if row is None` test in the source can never
fire, a result row being a tuple). -/
def graph_val_get (active : List (String × Int)) (tbl : List GraphValRow)
    (graph key branch : String) (rev : Int) : Except PyErr (Option String) :=
  match active with
  | [] => Except.error PyErr.keyNeverSet
  | _ :: rest =>
    match sql_graph_val_get tbl graph key branch rev with
    | [] => graph_val_get rest tbl graph key branch rev
    | v :: _ => Except.ok v

/-- `QueryEngine.node_val_get`, given the already-produced
`active_branches` sequence.  As with `graph_val_get`, each iteration
issues the query with the original `branch` and `rev` arguments, not the
yielded `(b, r)`; a first row with NULL value raises
`KeyError("Key not set")`, otherwise the value is returned. -/
def node_val_get (active : List (String × Int)) (tbl : List NodeValRow)
    (graph node key branch : String) (rev : Int) :
    Except PyErr (Option String) :=
  match active with
  | [] => Except.error PyErr.keyNeverSet
  | _ :: rest =>
    match sql_node_val_get tbl graph node key branch rev with
    | [] => node_val_get rest tbl graph node key branch rev
    | v :: _ => if v.isNone then Except.error PyErr.keyNotSet else Except.ok v

/-- The `global` table: `key` is the primary key. -/
abbrev GlobalTable := List (String × String)

/-- The compiled query `global_ins`: a plain INSERT, failing with
`IntegrityError` when the primary key already has a row. -/
def global_ins (tbl : GlobalTable) (k v : String) :
    Except PyErr GlobalTable :=
  if tbl.any (fun row => decide (row.1 = k)) then
    Except.error PyErr.integrityError
  else Except.ok (tbl ++ [(k, v)])

/-- The compiled query `global_upd`: UPDATE value on every row whose key
matches. -/
def global_upd (tbl : GlobalTable) (v k : String) : GlobalTable :=
  tbl.map (fun row => if row.1 = k then (k, v) else row)

/-- `QueryEngine.global_set`: try `global_ins`, and on `IntegrityError`
reissue as `global_upd`. -/
def global_set (tbl : GlobalTable) (k v : String) : GlobalTable :=
  match global_ins tbl k v with
  | Except.ok t => t
  | Except.error _ => global_upd tbl v k

/-- The compiled query `exist_node_ins` for one row: a plain INSERT into
`nodes`, failing with `IntegrityError` when the primary key
`(graph, node, branch, rev)` already has a row. -/
def exist_node_ins_row (tbl : List NodeRow) (row : NodeRow) :
    Except PyErr (List NodeRow) :=
  if tbl.any (fun q =>
      decide (q.graph = row.graph) && decide (q.node = row.node) &&
      decide (q.branch = row.branch) && decide (q.rev = row.rev)) then
    Except.error PyErr.integrityError
  else Except.ok (tbl ++ [row])

/-- `QueryEngine.exist_node_many` (as invoked by `flush_nodes`): an
`executemany` of `exist_node_ins` rows.  No `IntegrityError` handler is
present anywhere on this path, so a primary-key conflict propagates. -/
def exist_node_many (tbl : List NodeRow) : List NodeRow →
    Except PyErr (List NodeRow)
  | [] => Except.ok tbl
  | r :: rest =>
    match exist_node_ins_row tbl r with
    | Except.ok t => exist_node_many t rest
    | Except.error e => Except.error e

/-- The names of every compiled query: the keys of the dictionary built
by `gorm.alchemy.compile_sql`, which are also the method names of
`Alchemist` and the keys of the precompiled `sqlite.json`
(`CompiledQueriesTest` asserts the two key sets are equal). -/
def queryCatalog : List String :=
  ["ctbranch", "ctgraph", "allbranch", "global_get", "edge_val_ins",
   "edge_val_upd", "global_items", "ctglobal", "new_graph", "graph_type",
   "new_branch", "del_edge_val_graph", "del_node_val_graph",
   "del_node_graph", "del_graph", "parrev", "parparrev", "global_ins",
   "global_upd", "global_del", "nodes_extant", "node_exists",
   "exist_node_ins", "exist_node_upd", "graph_val_items", "graph_val_get",
   "graph_val_ins", "graph_val_upd", "node_val_items", "node_val_get",
   "node_val_ins", "node_val_upd", "edge_exists", "edges_extant",
   "nodeAs", "nodeBs", "multi_edges", "edge_exist_ins", "edge_exist_upd",
   "edge_val_items", "edge_val_get",
   "create_global", "create_branches", "create_graphs", "create_graph_val",
   "create_nodes", "create_node_val", "create_edges", "create_edge_val",
   "index_graph_val", "index_nodes", "index_node_val", "index_edges",
   "index_edge_val"]

/-- The whole database state, one list per table (the `graphs` header
table keeps `(graph, type)`; `global` and `branches` are irrelevant to
graph deletion). -/
structure DBState where
  graphs : List (String × String)
  graph_val : List GraphValRow
  nodes : List NodeRow
  node_val : List NodeValRow
  edges : List EdgeRow
  edge_val : List EdgeValRow
deriving DecidableEq

/-- `self.sql(name, g)` for the by-graph deletion queries: an unknown
query name raises (`KeyError` on the sqlite path looking up
`self.strings[name]`, `AttributeError` on the alchemy path; the sqlite
variant is modelled); a known deletion query removes the rows of `g`
from its table. -/
def runGraphDeletion (db : DBState) (name g : String) :
    Except PyErr DBState :=
  if name ∈ queryCatalog then
    Except.ok
      (if name = "del_edge_val_graph" then
        ⟨db.graphs, db.graph_val, db.nodes, db.node_val, db.edges,
         db.edge_val.filter (fun r => ! decide (r.graph = g))⟩
      else if name = "del_node_val_graph" then
        ⟨db.graphs, db.graph_val, db.nodes,
         db.node_val.filter (fun r => ! decide (r.graph = g)), db.edges,
         db.edge_val⟩
      else if name = "del_node_graph" then
        ⟨db.graphs, db.graph_val,
         db.nodes.filter (fun r => ! decide (r.graph = g)), db.node_val,
         db.edges, db.edge_val⟩
      else if name = "del_graph" then
        ⟨db.graphs.filter (fun r => ! decide (r.1 = g)), db.graph_val,
         db.nodes, db.node_val, db.edges, db.edge_val⟩
      else db)
  else Except.error (PyErr.keyError name)

/-- One statement of `QueryEngine.del_graph`: skipped once an exception
is pending, otherwise executed against the current state (an exception
keeps the state reached so far, as in Python). -/
def delGraphStep (acc : Option PyErr × DBState) (name g : String) :
    Option PyErr × DBState :=
  match acc with
  | (some e, db) => (some e, db)
  | (none, db) =>
    match runGraphDeletion db name g with
    | Except.ok db1 => (none, db1)
    | Except.error e => (some e, db)

/-- `QueryEngine.del_graph`, statement by statement in source order:
`del_edge_val_graph`, `del_edge_graph`, `del_node_val_graph`,
`del_edge_val_graph` (a second time), `del_graph`. -/
def del_graph (db : DBState) (g : String) : Option PyErr × DBState :=
  let s1 := delGraphStep (none, db) "del_edge_val_graph" g
  let s2 := delGraphStep s1 "del_edge_graph" g
  let s3 := delGraphStep s2 "del_node_val_graph" g
  let s4 := delGraphStep s3 "del_edge_val_graph" g
  delGraphStep s4 "del_graph" g

/-! `gorm.cache.Cache`.  Python dicts are association lists preserving
insertion order; the auto-vivifying `StructuredDefaultDict` /
`PickyDefaultDict` levels are modelled by reading with an empty default
instead of inserting empty intermediate levels, which is observationally
equivalent (an empty level has no members and no entries). -/

/-- Dict lookup on an association list. -/
def alget {κ α : Type} [DecidableEq κ] : List (κ × α) → κ → Option α
  | [], _ => none
  | (k1, v) :: r, k => if k1 = k then some v else alget r k

/-- Dict assignment on an association list: overwrite in place, or append
a new binding (Python dicts keep insertion order). -/
def alset {κ α : Type} [DecidableEq κ] : List (κ × α) → κ → α → List (κ × α)
  | [], k, v => [(k, v)]
  | (k1, v1) :: r, k, v =>
    if k1 = k then (k, v) :: r else (k1, v1) :: alset r k v

/-- A tuple of path components (graph, node, ...), each a string. -/
abbrev Path := List String

/-- A revision history of plain values. -/
abbrev FWDStr := WindowDict String

/-- A Python `set` of key names, as a duplicate-free list. -/
abbrev KeySet := List String

/-- `gorm.cache.Cache`: the in-memory indexes.  `parents` is keyed
(path, entity, key, branch); `keys` (path, key, branch); `branches`
(path, branch); `shallow` by the full path tuple; `shallower` by path
tuple plus revision; `keycache` maps `parentity + (branch,)` to a
`FuturistWindowDict` of extant-key sets. -/
structure Cache where
  parents : List (Path × List (String × List (String × List (String × FWDStr))))
  keys : List (Path × List (String × List (String × FWDStr)))
  keycache : List (Path × WindowDict KeySet)
  branches : List (Path × List (String × FWDStr))
  shallow : List (Path × FWDStr)
  shallower : List ((Path × Int) × Option String)

/-- A freshly constructed `Cache`. -/
def emptyCache : Cache := ⟨[], [], [], [], [], []⟩

/-- Replace the `keycache` field. -/
def setCacheKeycache (c : Cache) (m : List (Path × WindowDict KeySet)) :
    Cache :=
  ⟨c.parents, c.keys, m, c.branches, c.shallow, c.shallower⟩

/-- Read `self.parents[parent][entity][key][branch]` (vivifying read). -/
def getParentsFWD (c : Cache) (parent : Path) (entity key branch : String) :
    FWDStr :=
  let m1 := (alget c.parents parent).getD []
  let m2 := (alget m1 entity).getD []
  let m3 := (alget m2 key).getD []
  (alget m3 branch).getD ⟨[], []⟩

/-- Write back `self.parents[parent][entity][key][branch]`. -/
def setParentsFWD (c : Cache) (parent : Path) (entity key branch : String)
    (d : FWDStr) : Cache :=
  let m1 := (alget c.parents parent).getD []
  let m2 := (alget m1 entity).getD []
  let m3 := (alget m2 key).getD []
  ⟨alset c.parents parent (alset m1 entity (alset m2 key (alset m3 branch d))),
   c.keys, c.keycache, c.branches, c.shallow, c.shallower⟩

/-- Read `self.keys[path][key][branch]` (vivifying read). -/
def getKeysFWD (c : Cache) (path : Path) (key branch : String) : FWDStr :=
  let m1 := (alget c.keys path).getD []
  let m2 := (alget m1 key).getD []
  (alget m2 branch).getD ⟨[], []⟩

/-- Write back `self.keys[path][key][branch]`. -/
def setKeysFWD (c : Cache) (path : Path) (key branch : String) (d : FWDStr) :
    Cache :=
  let m1 := (alget c.keys path).getD []
  let m2 := (alget m1 key).getD []
  ⟨c.parents, alset c.keys path (alset m1 key (alset m2 branch d)),
   c.keycache, c.branches, c.shallow, c.shallower⟩

/-- Read `self.branches[path][branch]` (vivifying read). -/
def getBranchesFWD (c : Cache) (path : Path) (branch : String) : FWDStr :=
  let m1 := (alget c.branches path).getD []
  (alget m1 branch).getD ⟨[], []⟩

/-- Write back `self.branches[path][branch]`. -/
def setBranchesFWD (c : Cache) (path : Path) (branch : String) (d : FWDStr) :
    Cache :=
  let m1 := (alget c.branches path).getD []
  ⟨c.parents, c.keys, c.keycache, alset c.branches path (alset m1 branch d),
   c.shallow, c.shallower⟩

/-- Read `self.shallow[path]` (vivifying read). -/
def getShallowFWD (c : Cache) (path : Path) : FWDStr :=
  (alget c.shallow path).getD ⟨[], []⟩

/-- Write back `self.shallow[path]`. -/
def setShallowFWD (c : Cache) (path : Path) (d : FWDStr) : Cache :=
  ⟨c.parents, c.keys, c.keycache, c.branches, alset c.shallow path d,
   c.shallower⟩

/-- `self.shallower[args] = value`. -/
def setShallower (c : Cache) (k : Path × Int) (v : Option String) : Cache :=
  ⟨c.parents, c.keys, c.keycache, c.branches, c.shallow,
   alset c.shallower k v⟩

/-- The seeding loop of `Cache._forward_keycache`: scan the pairs yielded
by `self.gorm._active_branches()` (the engine lives outside this module;
the pairs are taken as the parameter `ab`) for the first ancestor whose
keycache has an effective set at its revision, and copy that set into a
fresh `FuturistWindowDict` at `rev`. -/
def seedKeycache (c : Cache) (parentity : Path) (rev : Int) :
    List (String × Int) → Except PyErr (WindowDict KeySet)
  | [] => Except.ok ⟨[], []⟩
  | (b, r) :: rest =>
    match alget c.keycache (parentity ++ [b]) with
    | some other =>
      match WindowDict.getitem other r with
      | Except.ok s => WindowDict.storeFWD ⟨[], []⟩ rev (some s)
      | Except.error _ => seedKeycache c parentity rev rest
    | none => seedKeycache c parentity rev rest

/-- `Cache._forward_keycache(parentity, branch, rev)`. -/
def forwardKeycache (ab : List (String × Int)) (c : Cache)
    (parentity : Path) (branch : String) (rev : Int) : Except PyErr Cache :=
  let kck := parentity ++ [branch]
  match alget c.keycache kck with
  | some _ => Except.ok c
  | none => do
    let kc ← seedKeycache c parentity rev ab
    Except.ok (setCacheKeycache c (alset c.keycache kck kc))

/-- The per-keycache update at the end of `Cache.store`:
`if rev in kc: (copy-on-write unless exact, then discard/add key)
else: kc[rev] = set([key])`.  The `.add` / `.discard` calls mutate the
set object stored at the (now exact) revision in place.  Note that the
`else` arm installs `set([key])` whether or not `value` is the
tombstone. -/
def storeKeycacheUpdate (c : Cache) (kck : Path) (key : String) (rev : Int)
    (value : Option String) : Except PyErr Cache :=
  match alget c.keycache kck with
  | none => Except.error (PyErr.keyError "keycache")
  | some kc0 =>
    if WindowDict.fcontains kc0 rev then do
      let kc1 ←
        if WindowDict.hasExactRev kc0 rev then Except.ok kc0
        else
          match WindowDict.getitem kc0 rev with
          | Except.ok s => WindowDict.storeFWD kc0 rev (some s)
          | Except.error e => Except.error e
      match WindowDict.getitem kc1 rev with
      | Except.ok s =>
        let s2 :=
          if value.isNone then s.filter (fun x => ! decide (x = key))
          else if key ∈ s then s else s ++ [key]
        Except.ok (setCacheKeycache c
          (alset c.keycache kck (WindowDict.updateExact kc1 rev (some s2))))
      | Except.error e => Except.error e
    else do
      let kc1 ← WindowDict.storeFWD kc0 rev (some [key])
      Except.ok (setCacheKeycache c (alset c.keycache kck kc1))

/-- `Cache.store(*args)` with `args` already split into
`parent`, `entity`, `key`, `branch`, `rev`, `value`; `ab` is the pair
sequence produced by `self.gorm._active_branches()`.  Statements in
source order: the five index writes, the two `_forward_keycache` calls,
then the keycache loop, whose second iteration is skipped when both
keycache keys coincide (the Python `kc is keycached` identity test; the
two objects are identical exactly when the keys are equal). -/
def store (ab : List (String × Int)) (c : Cache) (parent : Path)
    (entity key branch : String) (rev : Int) (value : Option String) :
    Except PyErr Cache := do
  let c ←
    if parent.isEmpty then Except.ok c
    else do
      let fwd ← WindowDict.storeFWD (getParentsFWD c parent entity key branch)
        rev value
      Except.ok (setParentsFWD c parent entity key branch fwd)
  let fwd ← WindowDict.storeFWD (getKeysFWD c (parent ++ [entity]) key branch)
    rev value
  let c := setKeysFWD c (parent ++ [entity]) key branch fwd
  let bf ← WindowDict.storeFWD (getBranchesFWD c (parent ++ [entity, key])
    branch) rev value
  let c := setBranchesFWD c (parent ++ [entity, key]) branch bf
  let sf ← WindowDict.storeFWD (getShallowFWD c (parent ++ [entity, key, branch]))
    rev value
  let c := setShallowFWD c (parent ++ [entity, key, branch]) sf
  let c := setShallower c (parent ++ [entity, key, branch], rev) value
  let c ← forwardKeycache ab c (parent ++ [entity]) branch rev
  let c ← forwardKeycache ab c [entity] branch rev
  let k1 := parent ++ [entity, branch]
  let k2 := [entity, branch]
  let c ← storeKeycacheUpdate c k1 key rev value
  if k2 = k1 then Except.ok c else storeKeycacheUpdate c k2 key rev value

/-- `Cache.iter_entities_or_keys` (= `iter_keys` = `iter_entities`):
forward the keycache, then yield the effective extant set at `rev`,
yielding nothing when either dict lookup raises `KeyError`. -/
def iterEntitiesOrKeys (ab : List (String × Int)) (c : Cache) (path : Path)
    (branch : String) (rev : Int) : Except PyErr (Cache × KeySet) := do
  let c ← forwardKeycache ab c path branch rev
  match alget c.keycache (path ++ [branch]) with
  | none => Except.ok (c, [])
  | some kc =>
    match WindowDict.getitem kc rev with
    | Except.error _ => Except.ok (c, [])
    | Except.ok keys => Except.ok (c, keys)

/-- The ancestry walk inside `Cache.retrieve`, over the pairs yielded by
`self.gorm._active_branches(branch, rev)` (parameter `abr`); the
`for ... else` clause stores a tombstone when no ancestor hits.  The
nested `store` calls re-split the path tuple into parent and entity. -/
def walkStore (ab : List (String × Int)) (c : Cache) (path : Path)
    (key branch : String) (rev : Int) :
    List (String × Int) → Except PyErr Cache
  | [] => store ab c path.dropLast (path.getLast?.getD "") key branch rev none
  | (b, r) :: rest =>
    let bm := (alget c.branches (path ++ [key])).getD []
    match alget bm b with
    | some fwd =>
      match WindowDict.getitem fwd r with
      | Except.error e => Except.error e
      | Except.ok v => do
        let c ← store ab c path.dropLast (path.getLast?.getD "") key branch
          rev (some v)
        store ab c path.dropLast (path.getLast?.getD "") key b r (some v)
    | none => walkStore ab c path key branch rev rest

/-- `Cache.retrieve(*args)`: a stored tombstone in `shallower` raises
`KeyError("Set, then deleted")` (via the internal `ValueError`); a
missing `shallower` entry falls through to the ancestry walk, back-fills
and re-reads `shallow`, whose own `KeyError` propagates. -/
def retrieve (ab abr : List (String × Int)) (c : Cache) (path : Path)
    (key branch : String) (rev : Int) : Except PyErr (Cache × String) :=
  match alget c.shallower (path ++ [key, branch], rev) with
  | some none => Except.error PyErr.keySetThenDeleted
  | some (some v) => Except.ok (c, v)
  | none => do
    let hist := getShallowFWD c (path ++ [key, branch])
    let c ←
      if WindowDict.fcontains hist rev then Except.ok c
      else walkStore ab c path key branch rev abr
    match WindowDict.getitem (getShallowFWD c (path ++ [key, branch])) rev with
    | Except.ok v =>
      Except.ok (setShallower c (path ++ [key, branch], rev) (some v), v)
    | Except.error e => Except.error e

/-! Concrete fixtures used by witnesses and counterexamples. -/

/-- A concrete history used to instantiate `windowdict_getitem_effective`:
value 1 at revision 0, tombstone at revision 2, value 3 at revision 5. -/
def c1dict : WindowDict Nat := ⟨[(0, some 1), (2, none)], [(5, some 3)]⟩

/-- A branch cache with one child branch forked from `master` at
revision 0. -/
def c2branches : String → Option (String × Int) :=
  fun b => if b = "child" then some ("master", 0) else none

/-- A `graph_val` table with one row: graph `g`, key `k`, written in
`master` at revision 0. -/
def c2graphVal : List GraphValRow := [⟨"g", "k", "master", 0, some "7"⟩]

/-- A `node_val` table with one row: graph `g`, node `n`, key `k`,
written in `master` at revision 0. -/
def c2nodeVal : List NodeValRow := [⟨"g", "n", "k", "master", 0, some "7"⟩]

/-- The pair sequence yielded by `gorm._active_branches()` for an engine
whose cursor sits at `(master, 0)` with no other branches. -/
def c4ab : List (String × Int) := [("master", 0)]

/-- A database holding graph `g` with one row in every table. -/
def c5db : DBState :=
  ⟨[("g", "Graph")],
   [⟨"g", "k", "master", 0, some "1"⟩],
   [⟨"g", "n", "master", 0, true⟩],
   [⟨"g", "n", "k", "master", 0, some "2"⟩],
   [⟨"g", "n", "m", 0, "master", 0, true⟩],
   [⟨"g", "n", "m", 0, "w", "master", 0, some "3"⟩]⟩

/-- What `c5db` looks like after deleting only the `edge_val` rows of
`g`. -/
def c5dbAfter : DBState :=
  ⟨[("g", "Graph")],
   [⟨"g", "k", "master", 0, some "1"⟩],
   [⟨"g", "n", "master", 0, true⟩],
   [⟨"g", "n", "k", "master", 0, some "2"⟩],
   [⟨"g", "n", "m", 0, "master", 0, true⟩],
   []⟩

/-- A branch cache with one child branch forked from `master` at
revision 3. -/
def c6branches : String → Option (String × Int) :=
  fun b => if b = "child" then some ("master", 3) else none

/-- A sorted two-entry history used to instantiate the
`FuturistWindowDict` guard theorem. -/
def c7dict : WindowDict Nat := ⟨[(0, some 1)], [(2, some 2)]⟩

/-- A `nodes` table with a single row at primary key
`(g, n, master, 0)`. -/
def c8nodes : List NodeRow := [⟨"g", "n", "master", 0, true⟩]

/-! Auxiliary list lemmas used by the seek proofs. -/

theorem takeWhile_append_pos {β : Type} {P : β → Bool} {l₁ l₂ : List β}
    (h : ∀ a ∈ l₁, P a = true) :
    (l₁ ++ l₂).takeWhile P = l₁ ++ l₂.takeWhile P := by
  induction l₁ with
  | nil => simp
  | cons a t ih =>
    have ha := h a (List.mem_cons_self a t)
    simp [List.takeWhile_cons, ha,
      ih (fun b hb => h b (List.mem_cons_of_mem a hb))]

theorem dropWhile_append_pos {β : Type} {P : β → Bool} {l₁ l₂ : List β}
    (h : ∀ a ∈ l₁, P a = true) :
    (l₁ ++ l₂).dropWhile P = l₂.dropWhile P := by
  induction l₁ with
  | nil => simp
  | cons a t ih =>
    have ha := h a (List.mem_cons_self a t)
    simp [List.dropWhile_cons, ha,
      ih (fun b hb => h b (List.mem_cons_of_mem a hb))]

theorem takeWhile_append_neg {β : Type} {P : β → Bool} {l₁ l₂ : List β}
    (h : ∃ a ∈ l₁, P a = false) :
    (l₁ ++ l₂).takeWhile P = l₁.takeWhile P := by
  induction l₁ with
  | nil =>
    obtain ⟨a, ha, _⟩ := h
    exact absurd ha (List.not_mem_nil a)
  | cons b t ih =>
    by_cases hb : P b = true
    · obtain ⟨a, ha, hPa⟩ := h
      have ht : ∃ a ∈ t, P a = false := by
        rcases List.mem_cons.mp ha with rfl | hmem
        · rw [hb] at hPa; cases hPa
        · exact ⟨a, hmem, hPa⟩
      simp [List.takeWhile_cons, hb, ih ht]
    · simp [List.takeWhile_cons, hb]

theorem dropWhile_append_neg {β : Type} {P : β → Bool} {l₁ l₂ : List β}
    (h : ∃ a ∈ l₁, P a = false) :
    (l₁ ++ l₂).dropWhile P = l₁.dropWhile P ++ l₂ := by
  induction l₁ with
  | nil =>
    obtain ⟨a, ha, _⟩ := h
    exact absurd ha (List.not_mem_nil a)
  | cons b t ih =>
    by_cases hb : P b = true
    · obtain ⟨a, ha, hPa⟩ := h
      have ht : ∃ a ∈ t, P a = false := by
        rcases List.mem_cons.mp ha with rfl | hmem
        · rw [hb] at hPa; cases hPa
        · exact ⟨a, hmem, hPa⟩
      simp [List.dropWhile_cons, hb, ih ht]
    · simp [List.dropWhile_cons, hb]

theorem takeWhile_eq_self_of_all {β : Type} {P : β → Bool} {l : List β}
    (h : ∀ a ∈ l, P a = true) : l.takeWhile P = l := by
  induction l with
  | nil => simp
  | cons a t ih =>
    simp [List.takeWhile_cons, h a (List.mem_cons_self a t),
      ih (fun b hb => h b (List.mem_cons_of_mem a hb))]

theorem dropWhile_eq_nil_of_all {β : Type} {P : β → Bool} {l : List β}
    (h : ∀ a ∈ l, P a = true) : l.dropWhile P = [] := by
  induction l with
  | nil => simp
  | cons a t ih =>
    simp [List.dropWhile_cons, h a (List.mem_cons_self a t),
      ih (fun b hb => h b (List.mem_cons_of_mem a hb))]

theorem takeWhile_concat_neg {β : Type} {P : β → Bool} {l : List β} {x : β}
    (h : P x = false) : (l ++ [x]).takeWhile P = l.takeWhile P := by
  induction l with
  | nil => simp [List.takeWhile_cons, h]
  | cons a t ih =>
    by_cases ha : P a = true
    · simp [List.takeWhile_cons, ha, ih]
    · simp [List.takeWhile_cons, ha]

theorem dropWhile_concat_neg {β : Type} {P : β → Bool} {l : List β} {x : β}
    (h : P x = false) : (l ++ [x]).dropWhile P = l.dropWhile P ++ [x] := by
  induction l with
  | nil => simp [List.dropWhile_cons, h]
  | cons a t ih =>
    by_cases ha : P a = true
    · simp [List.dropWhile_cons, ha, ih]
    · simp [List.dropWhile_cons, ha]

theorem mem_of_getLast?_eq {β : Type} {l : List β} {a : β}
    (h : l.getLast? = some a) : a ∈ l := by
  obtain ⟨ys, rfl⟩ := List.getLast?_eq_some_iff.mp h
  simp

theorem le_of_pairwise_getLast {α : Type} {l : List (Entry α)} {e : Entry α}
    (hl : List.Pairwise (fun a b : Entry α => a.1 < b.1) l)
    (h : l.getLast? = some e) : ∀ x ∈ l, x.1 ≤ e.1 := by
  obtain ⟨ys, rfl⟩ := List.getLast?_eq_some_iff.mp h
  rw [List.pairwise_append] at hl
  intro x hx
  rcases List.mem_append.mp hx with hx | hx
  · exact le_of_lt (hl.2.2 x hx e (by simp))
  · rcases List.mem_singleton.mp hx with rfl
    exact le_refl _

namespace WindowDict

theorem moveFutureToPast_eq {α : Type} (rev : Int) (p f : List (Entry α)) :
    moveFutureToPast rev p f =
      (p ++ f.takeWhile (keyLE rev), f.dropWhile (keyLE rev)) := by
  induction f generalizing p with
  | nil => simp [moveFutureToPast]
  | cons e f ih =>
    by_cases he : e.1 ≤ rev
    · have hkey : keyLE rev e = true := by simp [keyLE, he]
      simp [moveFutureToPast, he, ih, hkey, List.takeWhile_cons,
        List.dropWhile_cons]
    · have hkey : keyLE rev e = false := by simp [keyLE, he]
      simp [moveFutureToPast, he, hkey, List.takeWhile_cons,
        List.dropWhile_cons]

theorem movePastToFuture_eq {α : Type} (rev : Int) (p f : List (Entry α))
    (hp : List.Pairwise (fun a b : Entry α => a.1 < b.1) p) :
    movePastToFuture rev p f =
      (p.takeWhile (keyLE rev), p.dropWhile (keyLE rev) ++ f) := by
  induction p using List.reverseRecOn generalizing f with
  | nil => simp [movePastToFuture, movePastToFutureRev]
  | append_singleton ps x ih =>
    rw [movePastToFuture, List.reverse_append]
    simp only [List.reverse_singleton, List.singleton_append]
    rw [movePastToFutureRev]
    by_cases hx : rev < x.1
    · have hkey : keyLE rev x = false := by
        simp [keyLE]; omega
      simp only [hx, if_true]
      have hps : List.Pairwise (fun a b : Entry α => a.1 < b.1) ps := by
        rw [List.pairwise_append] at hp
        exact hp.1
      have := ih (x :: f) hps
      rw [movePastToFuture] at this
      rw [this]
      rw [takeWhile_concat_neg hkey, dropWhile_concat_neg hkey]
      simp
    · have hall : ∀ a ∈ ps ++ [x], keyLE rev a = true := by
        intro a ha
        rcases List.mem_append.mp ha with ha | ha
        · rw [List.pairwise_append] at hp
          have := hp.2.2 a ha x (by simp)
          simp [keyLE]; omega
        · rcases List.mem_singleton.mp ha with rfl
          simp [keyLE]; omega
      simp only [hx, if_false]
      rw [takeWhile_eq_self_of_all hall, dropWhile_eq_nil_of_all hall]
      simp

theorem seek_eq {α : Type} (rev : Int) (d : WindowDict α) (hd : d.Sorted) :
    seek rev d =
      ⟨d.entries.takeWhile (keyLE rev), d.entries.dropWhile (keyLE rev)⟩ := by
  obtain ⟨p, f⟩ := d
  have hent : entries ⟨p, f⟩ = p ++ f := rfl
  rw [Sorted, hent] at hd
  by_cases hf : seekFast rev ⟨p, f⟩ = true
  · rw [seek, if_pos hf]
    rw [seekFast] at hf
    match hp : p.getLast? , hq : f.head? with
    | none, _ =>
      rw [hp] at hf
      simp at hf
    | some e, none =>
      rw [hp, hq] at hf
      simp at hf
      have hfnil : f = [] := List.head?_eq_none_iff.mp hq
      subst hfnil
      have hall : ∀ a ∈ p, keyLE rev a = true := by
        intro a ha
        have := le_of_pairwise_getLast (by simpa using hd) hp a ha
        simp [keyLE]; omega
      rw [hent]
      simp [takeWhile_eq_self_of_all hall, dropWhile_eq_nil_of_all hall]
    | some e, some f0 =>
      rw [hp, hq] at hf
      simp at hf
      obtain ⟨ftail, rfl⟩ : ∃ ftail, f = f0 :: ftail := by
        cases f with
        | nil => simp at hq
        | cons a t => exact ⟨t, by simpa using congrArg (fun o => o.getD a) hq⟩
      have hpp : List.Pairwise (fun a b : Entry α => a.1 < b.1) p :=
        (List.pairwise_append.mp hd).1
      have hall : ∀ a ∈ p, keyLE rev a = true := by
        intro a ha
        have := le_of_pairwise_getLast hpp hp a ha
        simp [keyLE]; omega
      have hf0 : keyLE rev f0 = false := by
        simp [keyLE]; omega
      rw [hent, takeWhile_append_pos hall, dropWhile_append_pos hall]
      simp [List.takeWhile_cons, List.dropWhile_cons, hf0]
  · rw [seek, if_neg hf, hent]
    dsimp only
    rw [moveFutureToPast_eq]
    dsimp only
    have hsub : (p ++ f.takeWhile (keyLE rev)).Sublist (p ++ f) :=
      List.Sublist.append_left (List.takeWhile_sublist _) p
    have hps : List.Pairwise (fun a b : Entry α => a.1 < b.1)
        (p ++ f.takeWhile (keyLE rev)) := List.Pairwise.sublist hsub hd
    rw [movePastToFuture_eq rev _ _ hps]
    dsimp only
    by_cases hall : ∀ a ∈ p, keyLE rev a = true
    · have htw : ∀ a ∈ f.takeWhile (keyLE rev), keyLE rev a = true :=
        fun a ha => List.mem_takeWhile_imp ha
      have hall2 : ∀ a ∈ p ++ f.takeWhile (keyLE rev), keyLE rev a = true := by
        intro a ha
        rcases List.mem_append.mp ha with ha | ha
        · exact hall a ha
        · exact htw a ha
      rw [takeWhile_eq_self_of_all hall2, dropWhile_eq_nil_of_all hall2]
      rw [takeWhile_append_pos hall, dropWhile_append_pos hall]
      simp
    · push_neg at hall
      obtain ⟨a, ha, hPa⟩ := hall
      have hex : ∃ a ∈ p, keyLE rev a = false :=
        ⟨a, ha, by simpa using hPa⟩
      rw [takeWhile_append_neg hex, takeWhile_append_neg hex,
        dropWhile_append_neg hex, dropWhile_append_neg hex]
      simp [List.takeWhile_append_dropWhile]

/-- `seek` permutes nothing: the entry list is unchanged. -/
theorem entries_seek {α : Type} (rev : Int) (d : WindowDict α)
    (hd : d.Sorted) : (seek rev d).entries = d.entries := by
  rw [seek_eq rev d hd]
  simp only [entries]
  exact List.takeWhile_append_dropWhile _ _

/-- On a strictly ascending entry list, `takeWhile (keyLE rev)` keeps
exactly the entries with revision at most `rev`. -/
theorem takeWhile_keyLE_eq_filter {α : Type} (rev : Int)
    {l : List (Entry α)}
    (hl : List.Pairwise (fun a b : Entry α => a.1 < b.1) l) :
    l.takeWhile (keyLE rev) = l.filter (keyLE rev) := by
  induction l with
  | nil => simp
  | cons a t ih =>
    rcases List.pairwise_cons.mp hl with ⟨ha, ht⟩
    by_cases hPa : keyLE rev a = true
    · simp [List.takeWhile_cons, List.filter_cons, hPa, ih ht]
    · have hnone : t.filter (keyLE rev) = [] := by
        rw [List.filter_eq_nil_iff]
        intro b hb
        have h1 : a.1 < b.1 := ha b hb
        simp only [keyLE, decide_eq_true_eq] at hPa ⊢
        omega
      simp [List.takeWhile_cons, List.filter_cons, hPa, hnone]

end WindowDict

open WindowDict in
/-- C1: for every `WindowDict` satisfying the representation invariant
and every queried revision, `__getitem__` returns the value stored at
the greatest revision at most `rev`; it raises
`KeyError("Revision ... is before the start of history")` when no such
revision exists, and `KeyError("Set, then deleted")` when the value
there is the tombstone — absent-by-tombstone is distinguishable from
never-set only by the error.  The second conjunct states that the entry
selected by the sorted filter is indeed the one with the greatest
revision at most `rev`. -/
theorem windowdict_getitem_effective {α : Type} (d : WindowDict α)
    (rev : Int) (hd : d.Sorted) :
    d.getitem rev =
      (match (d.entries.filter (keyLE rev)).getLast? with
       | none => Except.error PyErr.keyBeforeStart
       | some (_, none) => Except.error PyErr.keySetThenDeleted
       | some (_, some v) => Except.ok v)
    ∧ ∀ e, (d.entries.filter (keyLE rev)).getLast? = some e →
        e.1 ≤ rev ∧ e ∈ d.entries ∧
          ∀ x ∈ d.entries, x.1 ≤ rev → x.1 ≤ e.1 := by
  constructor
  · rw [getitem]
    rw [seek_eq rev d hd]
    rw [takeWhile_keyLE_eq_filter rev hd]
  · intro e he
    have hmem : e ∈ d.entries.filter (keyLE rev) := mem_of_getLast?_eq he
    have hkey : keyLE rev e = true := List.of_mem_filter hmem
    refine ⟨by simpa [keyLE] using hkey, (List.mem_filter.mp hmem).1, ?_⟩
    intro x hx hxle
    have hxf : x ∈ d.entries.filter (keyLE rev) :=
      List.mem_filter.mpr ⟨hx, by simp [keyLE, hxle]⟩
    have hpf : List.Pairwise (fun a b : Entry α => a.1 < b.1)
        (d.entries.filter (keyLE rev)) :=
      List.Pairwise.sublist (List.filter_sublist _) hd
    exact le_of_pairwise_getLast hpf he x hxf

open WindowDict in
/-- Witness for C1 at a concrete input: at revision 3 the greatest
stored revision at most 3 is 2, whose value is the tombstone, so the
lookup reports absent-by-tombstone. -/
theorem windowdict_getitem_effective_witness :
    c1dict.Sorted ∧
      c1dict.getitem 3 = Except.error PyErr.keySetThenDeleted :=
  ⟨by decide,
   ((windowdict_getitem_effective c1dict 3 (by decide)).1).trans (by decide)⟩

open WindowDict in
/-- C3 fails on the code: on the strictly sorted history
`{0: 0, 1: 1, 2: 2}` the call `set(1, 9)` falls into the final
`seek-then-append` arm of `__setitem__` and appends a second entry at
revision 1 instead of overwriting, breaking invariant I3 (at most one
entry per revision). -/
theorem windowdict_setitem_duplicates_interior_rev :
    (Sorted (⟨[(0, some 0), (1, some 1), (2, some 2)], []⟩ : WindowDict Nat))
    ∧ setitem (⟨[(0, some 0), (1, some 1), (2, some 2)], []⟩ : WindowDict Nat)
        1 (some 9)
      = Except.ok ⟨[(0, some 0), (1, some 1), (1, some 9)], [(2, some 2)]⟩
    ∧ (entries ⟨[(0, some 0), (1, some 1), (1, some 9)], [(2, some 2)]⟩).countP
        (fun e => decide (e.1 = 1)) = 2 := by
  decide

open WindowDict in
/-- C9 fails on the code: `__delitem__` dereferences the nonexistent
attribute `self._rev` before touching either deque, so deleting a
present revision raises `AttributeError` instead of removing the entry,
and deleting a missing revision raises `AttributeError` instead of
`KeyError`. -/
theorem windowdict_delitem_attribute_error :
    delitem (⟨[(0, some 1)], []⟩ : WindowDict Nat) 0
      = Except.error PyErr.attributeError
    ∧ delitem (⟨[(0, some 1)], []⟩ : WindowDict Nat) 5
      = Except.error PyErr.attributeError := by
  decide

open WindowDict in
/-- C7: on a sorted non-empty `FuturistWindowDict`, `set(rev, v)` raises
`ValueError` and leaves the stored history unchanged when some stored
revision is strictly greater than `rev`; otherwise it appends `(rev, v)`
when every stored revision is strictly smaller, and overwrites the final
entry when `rev` equals the latest stored revision. -/
theorem futurist_setitem_guard {α : Type} (d : WindowDict α) (rev : Int)
    (v : Option α) (hd : d.Sorted) (hne : d.entries ≠ []) :
    ((∃ e ∈ d.entries, rev < e.1) →
        (fsetitem d rev v).1 = Except.error PyErr.valueError ∧
          (fsetitem d rev v).2.entries = d.entries)
    ∧ ((∀ e ∈ d.entries, e.1 < rev) →
        fsetitem d rev v = (Except.ok (), ⟨d.entries ++ [(rev, v)], []⟩))
    ∧ (∀ er, d.entries.getLast? = some er → er.1 = rev →
        fsetitem d rev v
          = (Except.ok (), ⟨d.entries.dropLast ++ [(rev, v)], []⟩)) := by
  obtain ⟨p, f⟩ := d
  have hent : entries ⟨p, f⟩ = p ++ f := rfl
  have hpw : List.Pairwise (fun a b : Entry α => a.1 < b.1) (p ++ f) := hd
  rw [hent] at hne ⊢
  have hcond : (p.isEmpty && f.isEmpty) = false := by
    rcases p with _ | ⟨a, p⟩
    · rcases f with _ | ⟨b, f⟩
      · simp at hne
      · rfl
    · rfl
  have hstep : fsetitem ⟨p, f⟩ rev v
      = fsetitemTail rev v (if f.isEmpty then ⟨p, f⟩ else seek rev ⟨p, f⟩) := by
    rw [fsetitem, hcond]
    rfl
  by_cases hf : f.isEmpty
  · -- no seek happens; the future deque is already empty
    have hfnil : f = [] := by
      cases f with
      | nil => rfl
      | cons a t => simp at hf
    subst hfnil
    rw [List.append_nil] at hne hpw ⊢
    have hsimp : fsetitem ⟨p, []⟩ rev v = fsetitemTail rev v ⟨p, []⟩ :=
      hstep.trans (by rw [if_pos hf])
    obtain ⟨e, he⟩ : ∃ e, p.getLast? = some e := by
      cases hge : p.getLast? with
      | none => exact absurd (List.getLast?_eq_none_iff.mp hge) hne
      | some e => exact ⟨e, rfl⟩
    have htail : fsetitemTail rev v (⟨p, []⟩ : WindowDict α)
        = (if e.1 < rev then (Except.ok (), ⟨p ++ [(rev, v)], []⟩)
           else if rev = e.1 then
             (Except.ok (), ⟨p.dropLast ++ [(rev, v)], []⟩)
           else (Except.error PyErr.valueError, ⟨p, []⟩)) := by
      rw [fsetitemTail]
      simp only [List.isEmpty_nil, if_true, he]
    refine ⟨?_, ?_, ?_⟩
    · rintro ⟨x, hx, hxr⟩
      have hxe := le_of_pairwise_getLast hpw he x hx
      rw [hsimp, htail, if_neg (by omega), if_neg (by omega)]
      exact ⟨rfl, by simp [entries]⟩
    · intro hall
      have h1 : e.1 < rev := hall e (mem_of_getLast?_eq he)
      rw [hsimp, htail, if_pos h1]
    · intro er her hrev
      have hee : er = e := Option.some.inj (her.symm.trans he)
      subst hee
      rw [hsimp, htail, if_neg (by omega), if_pos hrev.symm]
  · -- the future deque is non-empty, so a seek happens first
    have hseekv : (if f.isEmpty then (⟨p, f⟩ : WindowDict α)
          else seek rev ⟨p, f⟩)
        = ⟨(p ++ f).takeWhile (keyLE rev), (p ++ f).dropWhile (keyLE rev)⟩ := by
      rw [if_neg hf, seek_eq rev ⟨p, f⟩ hd, hent]
    have hsimp : fsetitem ⟨p, f⟩ rev v
        = fsetitemTail rev v
            ⟨(p ++ f).takeWhile (keyLE rev), (p ++ f).dropWhile (keyLE rev)⟩ :=
      hstep.trans (by rw [hseekv])
    by_cases hD : (p ++ f).dropWhile (keyLE rev) = []
    · -- everything is at most rev: the whole history lands in past
      have hT : (p ++ f).takeWhile (keyLE rev) = p ++ f := by
        have := List.takeWhile_append_dropWhile (keyLE rev) (p ++ f)
        rw [hD] at this
        simpa using this
      rw [hT, hD] at hsimp
      have hallLE : ∀ x ∈ p ++ f, x.1 ≤ rev := by
        intro x hx
        have hx2 : x ∈ (p ++ f).takeWhile (keyLE rev) := by rwa [hT]
        have := List.mem_takeWhile_imp hx2
        simpa [keyLE] using this
      obtain ⟨e, he⟩ : ∃ e, (p ++ f).getLast? = some e := by
        cases hge : (p ++ f).getLast? with
        | none => exact absurd (List.getLast?_eq_none_iff.mp hge) hne
        | some e => exact ⟨e, rfl⟩
      have htail : fsetitemTail rev v (⟨p ++ f, []⟩ : WindowDict α)
          = (if e.1 < rev then (Except.ok (), ⟨(p ++ f) ++ [(rev, v)], []⟩)
             else if rev = e.1 then
               (Except.ok (), ⟨(p ++ f).dropLast ++ [(rev, v)], []⟩)
             else (Except.error PyErr.valueError, ⟨p ++ f, []⟩)) := by
        rw [fsetitemTail]
        simp only [List.isEmpty_nil, if_true, he]
      refine ⟨?_, ?_, ?_⟩
      · rintro ⟨x, hx, hxr⟩
        have := hallLE x hx
        omega
      · intro hall
        have h1 : e.1 < rev := hall e (mem_of_getLast?_eq he)
        rw [hsimp, htail, if_pos h1]
      · intro er her hrev
        have hee : er = e := Option.some.inj (her.symm.trans he)
        subst hee
        rw [hsimp, htail, if_neg (by omega), if_pos hrev.symm]
    · -- some stored revision exceeds rev: the guard fires
      have hDe : ((p ++ f).dropWhile (keyLE rev)).isEmpty = false := by
        cases hcase : (p ++ f).dropWhile (keyLE rev) with
        | nil => exact absurd hcase hD
        | cons y ys => rfl
      have htail : fsetitemTail rev v
            (⟨(p ++ f).takeWhile (keyLE rev),
              (p ++ f).dropWhile (keyLE rev)⟩ : WindowDict α)
          = (Except.error PyErr.valueError,
             ⟨(p ++ f).takeWhile (keyLE rev),
              (p ++ f).dropWhile (keyLE rev)⟩) := by
        rw [fsetitemTail]
        simp only [hDe, Bool.false_eq_true, if_false]
      obtain ⟨y, ys, hys⟩ :
          ∃ y ys, (p ++ f).dropWhile (keyLE rev) = y :: ys := by
        cases hcase : (p ++ f).dropWhile (keyLE rev) with
        | nil => exact absurd hcase hD
        | cons y ys => exact ⟨y, ys, rfl⟩
      have hyP : keyLE rev y = false := by
        have := List.head?_dropWhile_not (keyLE rev) (p ++ f)
        rw [hys] at this
        simpa using this
      have hymem : y ∈ p ++ f := by
        have hsub := List.dropWhile_sublist (l := p ++ f) (keyLE rev)
        exact hsub.subset (by rw [hys]; simp)
      have hygt : rev < y.1 := by
        simp only [keyLE, decide_eq_false_iff_not] at hyP
        omega
      refine ⟨?_, ?_, ?_⟩
      · rintro -
        rw [hsimp, htail]
        refine ⟨rfl, ?_⟩
        simp only [entries]
        exact List.takeWhile_append_dropWhile _ _
      · intro hall
        exact absurd (hall y hymem) (not_lt.mpr (le_of_lt hygt))
      · intro er her hrev
        have hall : ∀ x ∈ p ++ f, keyLE rev x = true := by
          intro x hx
          have := le_of_pairwise_getLast hpw her x hx
          simp only [keyLE, decide_eq_true_eq]
          omega
        exact absurd (dropWhile_eq_nil_of_all hall) hD

open WindowDict in

/-- Witness for C7 at a concrete input: the history holds revisions 0
and 2, and `set(1, 5)` is rejected with `ValueError`, leaving the entry
list unchanged. -/
theorem futurist_setitem_guard_witness :
    (fsetitem c7dict 1 (some 5)).1 = Except.error PyErr.valueError ∧
      (fsetitem c7dict 1 (some 5)).2.entries = c7dict.entries :=
  (futurist_setitem_guard c7dict 1 (some 5) (by decide) (by decide)).1
    ⟨(2, some 2), by decide, by decide⟩

/-- Needed by `List.max?_eq_some_iff` at type `Int`. -/
instance : Std.Antisymm (fun a b : Int => a ≤ b) :=
  ⟨fun {_ _} h1 h2 => le_antisymm h1 h2⟩

/-- C6: provided the registered genealogy of the queried branch is a
tree reaching `master` (invariant I1), `active_branches(b, r)` yields —
with any sufficient fuel — one fixed finite list of pairs that starts
with `(b, r)`, steps to the registered `(parent, parent_rev)` at every
stage, ends at `master`, and contains `master` exactly once. -/
theorem active_branches_walk (bs : String → Option (String × Int))
    (b : String) (hb : RootedAt bs b) : ∀ r : Int,
    ∃ n l, (∀ fuel, n ≤ fuel → activeBranchesFrom bs fuel b r = Except.ok l)
      ∧ l.head? = some (b, r)
      ∧ List.Chain' (fun x y : String × Int => bs x.1 = some y) l
      ∧ (l.map Prod.fst).getLast? = some "master"
      ∧ (l.map Prod.fst).count "master" = 1 := by
  induction hb with
  | master =>
    intro r
    refine ⟨0, [("master", r)], ?_, rfl, ?_, ?_, ?_⟩
    · intro fuel _
      cases fuel <;> simp [activeBranchesFrom]
    · simp
    · simp
    · simp
  | step h1 h2 h3 ih =>
    rename_i b pb pr
    clear h3
    intro r
    obtain ⟨n, l, hfuel, hhead, hchain, hlast, hcount⟩ := ih pr
    obtain ⟨y, ys, rfl⟩ : ∃ y ys, l = y :: ys := by
      cases l with
      | nil => simp at hhead
      | cons y ys => exact ⟨y, ys, rfl⟩
    have hy : y = (pb, pr) := by simpa using hhead
    subst hy
    refine ⟨n + 1, (b, r) :: (pb, pr) :: ys, ?_, rfl, ?_, ?_, ?_⟩
    · intro fuel hge
      cases fuel with
      | zero => omega
      | succ m =>
        have hm : n ≤ m := by omega
        rw [activeBranchesFrom]
        rw [if_neg h1]
        rw [h2]
        dsimp only
        rw [hfuel m hm]
        rfl
    · exact List.Chain'.cons' hchain (by
        intro z hz
        simp only [List.head?_cons, Option.mem_def, Option.some.injEq] at hz
        rw [← hz]
        exact h2)
    · simp only [List.map_cons] at hlast ⊢
      rw [List.getLast?_cons_cons]
      exact hlast
    · simp only [List.map_cons] at hcount ⊢
      rw [List.count_cons]
      simp only [beq_iff_eq, h1, if_false, Nat.add_zero]
      exact hcount

/-- Witness for C6 at a concrete genealogy: `child` forked from `master`
at revision 3; the walk from `(child, 7)` is as described. -/
theorem active_branches_walk_witness :
    ∃ n l, (∀ fuel, n ≤ fuel →
        activeBranchesFrom c6branches fuel "child" 7 = Except.ok l)
      ∧ l.head? = some ("child", 7)
      ∧ List.Chain' (fun x y : String × Int => c6branches x.1 = some y) l
      ∧ (l.map Prod.fst).getLast? = some "master"
      ∧ (l.map Prod.fst).count "master" = 1 :=
  active_branches_walk c6branches "child"
    (RootedAt.step (by decide) rfl RootedAt.master) 7

/-- C2 fails on the code: with value 7 written at `(master, 0)` for
graph `g`, key `k` (node `n` for `node_val`), and branch `child` forked
from `master` at revision 0, the ancestry walk does reach
`(master, 0)`, and the per-branch query issued with the ancestor
parameters would return the row — but `graph_val_get` and
`node_val_get` pass the original `branch`/`rev` on every iteration, so
both raise `KeyError("Key never set")` instead of returning 7. -/
theorem engine_val_get_skips_ancestors :
    activeBranchesFrom c2branches 1 "child" 1
      = Except.ok [("child", 1), ("master", 0)]
    ∧ sql_graph_val_get c2graphVal "g" "k" "master" 0 = [some "7"]
    ∧ graph_val_get [("child", 1), ("master", 0)] c2graphVal "g" "k" "child" 1
      = Except.error PyErr.keyNeverSet
    ∧ sql_node_val_get c2nodeVal "g" "n" "k" "master" 0 = [some "7"]
    ∧ node_val_get [("child", 1), ("master", 0)] c2nodeVal "g" "n" "k"
        "child" 1 = Except.error PyErr.keyNeverSet := by
  decide

/-- C4 fails on the code: storing a tombstone for key `k` (never set
before) on entity `e` in `master` at revision 0 makes `retrieve` report
absent, as the claim says, but the keycache `else` arm installs
`set([key])` without checking for a tombstone, so `iter_keys` at the
very same `(branch, rev)` yields `k`. -/
theorem cache_tombstone_store_pollutes_keycache :
    ((store c4ab emptyCache [] "e" "k" "master" 0 none).bind (fun c1 =>
        (iterEntitiesOrKeys c4ab c1 ["e"] "master" 0).map (fun pr => pr.2)))
      = Except.ok ["k"]
    ∧ ((store c4ab emptyCache [] "e" "k" "master" 0 none).bind (fun c1 =>
        (retrieve c4ab c4ab c1 ["e"] "k" "master" 0).map (fun pr => pr.2)))
      = Except.error PyErr.keySetThenDeleted := by
  decide

/-- C5 fails on the code: `del_graph` deletes the `edge_val` rows, then
executes `self.sql('del_edge_graph', g)` — a query name that is in
neither the compiled catalog nor the precompiled sqlite strings — so it
raises `KeyError` having removed only `edge_val` rows; the `graphs`
header, `graph_val`, `nodes`, `node_val` and `edges` rows of `g` all
remain, and `del_node_graph` (which does exist) is never issued. -/
theorem del_graph_unknown_query_and_leftover_rows :
    del_graph c5db "g" = (some (PyErr.keyError "del_edge_graph"), c5dbAfter)
    ∧ "del_edge_graph" ∉ queryCatalog
    ∧ "del_node_graph" ∈ queryCatalog := by
  decide

/-- C8 fails as stated: the batched `nodes` writer issues a plain
insert-many with no `IntegrityError` handler, so a write whose primary
key `(g, n, master, 0)` already has a row propagates the integrity
error instead of being reissued as an update. -/
theorem exist_node_many_propagates_integrity_error :
    exist_node_many c8nodes [⟨"g", "n", "master", 0, false⟩]
      = Except.error PyErr.integrityError := by
  decide

theorem alget_global_upd {tbl : GlobalTable} {k v : String}
    (h : tbl.any (fun row => decide (row.1 = k)) = true) :
    alget (global_upd tbl v k) k = some v := by
  induction tbl with
  | nil => simp at h
  | cons a t ih =>
    obtain ⟨a1, a2⟩ := a
    by_cases hk : a1 = k
    · subst hk
      rw [global_upd, List.map_cons, if_pos (rfl : (a1, a2).1 = a1)]
      rw [alget, if_pos rfl]
    · have h1 : t.any (fun row => decide (row.1 = k)) = true := by
        simp only [List.any_cons, decide_eq_true_eq, Bool.or_eq_true] at h
        rcases h with h | h
        · exact absurd h hk
        · simpa using h
      rw [global_upd, List.map_cons, if_neg (hk : ¬ (a1, a2).1 = k)]
      rw [alget, if_neg hk]
      exact ih h1

theorem alget_eq_none_of_any_false {tbl : GlobalTable} {k : String}
    (h : tbl.any (fun row => decide (row.1 = k)) = false) :
    alget tbl k = none := by
  induction tbl with
  | nil => rfl
  | cons a t ih =>
    simp only [List.any_cons, Bool.or_eq_false_iff] at h
    have hk : ¬ a.1 = k := by simpa using h.1
    simp [alget, hk, ih h.2]

theorem alget_append_left_none {κ α : Type} [DecidableEq κ]
    {l₁ l₂ : List (κ × α)} {k : κ} (h : alget l₁ k = none) :
    alget (l₁ ++ l₂) k = alget l₂ k := by
  induction l₁ with
  | nil => rfl
  | cons a t ih =>
    by_cases hk : a.1 = k
    · rw [alget] at h
      obtain ⟨a1, a2⟩ := a
      simp only at hk
      rw [if_pos hk] at h
      cases h
    · obtain ⟨a1, a2⟩ := a
      simp only at hk
      rw [alget] at h
      rw [if_neg hk] at h
      rw [List.cons_append, alget, if_neg hk]
      exact ih h

/-- C8, amended: only the global key-value writer converts a
uniqueness violation into an update — for every table state and pair
`(k, v)`, `global_set` leaves the table mapping `k` to `v`, inserting or
updating as needed.  (The batched writers for graph_val, nodes,
node_val, edges and edge_val issue plain inserts and propagate
`IntegrityError`, as the companion counterexample shows.) -/
theorem global_set_upserts (tbl : GlobalTable) (k v : String) :
    alget (global_set tbl k v) k = some v := by
  by_cases h : tbl.any (fun row => decide (row.1 = k)) = true
  · rw [global_set, global_ins, if_pos h]
    exact alget_global_upd h
  · have hf : tbl.any (fun row => decide (row.1 = k)) = false :=
      Bool.eq_false_iff.mpr h
    rw [global_set, global_ins, if_neg (by simp [hf])]
    rw [alget_append_left_none (alget_eq_none_of_any_false hf)]
    simp [alget]

/-- C10 fails as stated: with `revs = {3}` and `rev = 3` the numpy path
(`less_equal`) returns 3 while the pure-Python fallback (`rv < rev`)
returns `None`, so the two implementations of `window_left` disagree
whenever `rev` itself is a member of `revs`. -/
theorem window_left_paths_disagree :
    window_left_np [3] 3 = some 3 ∧ window_left_py [3] 3 = none := by
  decide

/-- C10, amended: the numpy path returns the greatest element of `revs`
at most `rev` (absent when there is none); the fallback returns the
greatest element strictly below `rev`; consequently the two paths agree
on every query with `rev` not a member of `revs`. -/
theorem window_left_refines (revs : List Int) (rev : Int) (h : rev ∉ revs) :
    window_left_py revs rev = window_left_np revs rev
    ∧ (∀ m, window_left_np revs rev = some m →
        m ∈ revs ∧ m ≤ rev ∧ ∀ x ∈ revs, x ≤ rev → x ≤ m)
    ∧ (window_left_np revs rev = none → ∀ x ∈ revs, ¬ x ≤ rev) := by
  have hchar : ∀ (xs : List Int) (a : Int),
      xs.max? = some a ↔ a ∈ xs ∧ ∀ b ∈ xs, b ≤ a := by
    intro xs a
    exact List.max?_eq_some_iff Int.le_refl max_choice (fun _ _ _ => max_le_iff)
  have hnp : ∀ m, window_left_np revs rev = some m →
      m ∈ revs ∧ m ≤ rev ∧ ∀ x ∈ revs, x ≤ rev → x ≤ m := by
    intro m hm
    rw [window_left_np, hchar] at hm
    obtain ⟨hmem, hub⟩ := hm
    rw [List.mem_filter, List.mem_dedup] at hmem
    refine ⟨hmem.1, by simpa using hmem.2, ?_⟩
    intro x hx hxle
    exact hub x (List.mem_filter.mpr ⟨List.mem_dedup.mpr hx, by simpa using hxle⟩)
  have hnone : window_left_np revs rev = none → ∀ x ∈ revs, ¬ x ≤ rev := by
    intro hm x hx hxle
    rw [window_left_np, List.max?_eq_none_iff] at hm
    have : x ∈ (revs.dedup).filter (fun rv => decide (rv ≤ rev)) :=
      List.mem_filter.mpr ⟨List.mem_dedup.mpr hx, by simpa using hxle⟩
    rw [hm] at this
    simp at this
  refine ⟨?_, hnp, hnone⟩
  cases hcase : window_left_np revs rev with
  | none =>
    have hempty := hnone hcase
    rw [window_left_py, List.max?_eq_none_iff, List.filter_eq_nil_iff]
    intro x hx
    have := hempty x hx
    simp only [decide_eq_true_eq]
    omega
  | some m =>
    obtain ⟨hmem, hle, hub⟩ := hnp m hcase
    have hmne : m ≠ rev := by
      intro hcontra
      rw [hcontra] at hmem
      exact h hmem
    rw [window_left_py, hchar]
    constructor
    · refine List.mem_filter.mpr ⟨hmem, ?_⟩
      simp only [decide_eq_true_eq]
      omega
    · intro b hb
      rw [List.mem_filter] at hb
      have hblt : b < rev := by simpa using hb.2
      exact hub b hb.1 (le_of_lt hblt)

/-- Witness for C10 (amended) at a concrete input: 3 is not among the
revisions `{1, 5}`, and there the two paths agree. -/
theorem window_left_refines_witness :
    (3 : Int) ∉ ([1, 5] : List Int)
    ∧ window_left_py [1, 5] 3 = window_left_np [1, 5] 3 :=
  ⟨by decide, (window_left_refines [1, 5] 3 (by decide)).1⟩

end Gorm
